import Mathlib

/-!
Verification of the TransSRT batch-translation core against its code.

The definitions below are a shallow embedding of the Python sources:
  - src/backend/srt_parser.py   (SRTEntry)
  - src/backend/chunker.py      (Chunk, SubtitleChunker.create_chunks)
  - src/backend/translator.py   (GeminiTranslator._parse_response,
                                 _translate_chunk_with_retry, translate_chunks_async)
  - src/backend/main.py         (reassembly loop of process_translation)
  - src/backend/sbv_parser.py   (SBVParser.sbv_to_srt_timestamp)
-/

/-- Embeds the dataclass SRTEntry of src/backend/srt_parser.py:
all three fields are strings. -/
structure SRTEntry where
  number : String
  timestamp : String
  text : String
deriving DecidableEq

/-- Embeds the dataclass Chunk of src/backend/chunker.py. -/
structure Chunk where
  entries : List SRTEntry
  index : Nat
  total : Nat
  previous_context : List SRTEntry
deriving DecidableEq

/-- Ceiling division (len(entries) + chunk_size - 1) // chunk_size from
chunker.py line 48. -/
def totalChunks (n chunk_size : Nat) : Nat := (n + chunk_size - 1) / chunk_size

/-- The chunk built at loop offset i in SubtitleChunker.create_chunks
(chunker.py lines 50-66): entries[i:i+chunk_size] with 1-based index,
and previous_context = entries[max(0, i - context_size):i] for i > 0.
Python slices entries[a:b] are rendered as (entries.take b).drop a or
(entries.drop a).take (b - a). -/
def chunkAt (chunk_size context_size : Nat) (entries : List SRTEntry) (i : Nat) : Chunk :=
  { entries := (entries.drop i).take chunk_size
    index := i / chunk_size + 1
    total := totalChunks entries.length chunk_size
    previous_context := if 0 < i then (entries.take i).drop (i - context_size) else [] }

/-- The loop for i in range(0, len(entries), chunk_size) of create_chunks.
The fuel argument makes the recursion structural; it is initialised to
entries.length, which suffices because each iteration advances i by
chunk_size >= 1. -/
def createChunksLoop (chunk_size context_size : Nat) (entries : List SRTEntry) :
    Nat → Nat → List Chunk
  | _, 0 => []
  | i, fuel + 1 =>
    if i < entries.length then
      chunkAt chunk_size context_size entries i ::
        createChunksLoop chunk_size context_size entries (i + chunk_size) fuel
    else []

/-- Embeds SubtitleChunker.create_chunks (chunker.py lines 34-68).
Returns none where Python raises: on an empty entries list (line 45), and on
chunk_size = 0 (range with step 0 raises ValueError). -/
def create_chunks (chunk_size context_size : Nat) (entries : List SRTEntry) :
    Option (List Chunk) :=
  if entries.isEmpty then none
  else if chunk_size = 0 then none
  else some (createChunksLoop chunk_size context_size entries 0 entries.length)

theorem createChunksLoop_join (chunk_size context_size : Nat) (entries : List SRTEntry)
    (hcs : 0 < chunk_size) :
    ∀ fuel i, entries.length - i ≤ fuel →
      ((createChunksLoop chunk_size context_size entries i fuel).map Chunk.entries).flatten
        = entries.drop i := by
  intro fuel
  induction fuel with
  | zero =>
    intro i hi
    have : entries.length ≤ i := by omega
    simp [createChunksLoop, List.drop_eq_nil_of_le this]
  | succ fuel ih =>
    intro i hi
    by_cases h : i < entries.length
    · rw [createChunksLoop, if_pos h]
      rw [List.map_cons, List.flatten_cons, ih (i + chunk_size) (by omega)]
      show (entries.drop i).take chunk_size ++ entries.drop (i + chunk_size) = entries.drop i
      conv_rhs => rw [← List.take_append_drop chunk_size (entries.drop i)]
      congr 1
      rw [List.drop_drop]
    · rw [createChunksLoop, if_neg h]
      have : entries.length ≤ i := by omega
      simp [List.drop_eq_nil_of_le this]

/-- C2: for every non-empty entry list and chunk_size >= 1, the concatenation
in chunk order of the entries fields of the chunks returned by create_chunks
equals the original entry list exactly. -/
theorem create_chunks_concat_eq (chunk_size context_size : Nat) (entries : List SRTEntry)
    (hne : entries ≠ []) (hcs : 1 ≤ chunk_size) :
    ∃ chunks, create_chunks chunk_size context_size entries = some chunks ∧
      (chunks.map Chunk.entries).flatten = entries := by
  refine ⟨createChunksLoop chunk_size context_size entries 0 entries.length, ?_, ?_⟩
  · rw [create_chunks, if_neg (by simpa using hne), if_neg (by omega)]
  · simpa using createChunksLoop_join chunk_size context_size entries hcs entries.length 0
      (by omega)

/-- Witness for C2 at a concrete three-entry input with chunk_size 2. -/
theorem create_chunks_concat_eq_witness :
    ∃ chunks,
      create_chunks 2 3 [⟨"1", "t1", "a"⟩, ⟨"2", "t2", "b"⟩, ⟨"3", "t3", "c"⟩] = some chunks ∧
      (chunks.map Chunk.entries).flatten
        = [⟨"1", "t1", "a"⟩, ⟨"2", "t2", "b"⟩, ⟨"3", "t3", "c"⟩] :=
  create_chunks_concat_eq 2 3 [⟨"1", "t1", "a"⟩, ⟨"2", "t2", "b"⟩, ⟨"3", "t3", "c"⟩]
    (by decide) (by decide)

theorem createChunksLoop_getElem (chunk_size context_size : Nat) (entries : List SRTEntry)
    (hcs : 0 < chunk_size) :
    ∀ fuel i j, entries.length - i ≤ fuel →
      (createChunksLoop chunk_size context_size entries i fuel)[j]? =
        if i + j * chunk_size < entries.length then
          some (chunkAt chunk_size context_size entries (i + j * chunk_size))
        else none := by
  intro fuel
  induction fuel with
  | zero =>
    intro i j hi
    rw [createChunksLoop, if_neg (by omega)]
    simp
  | succ fuel ih =>
    intro i j hi
    by_cases h : i < entries.length
    · rw [createChunksLoop, if_pos h]
      cases j with
      | zero =>
        simp only [List.getElem?_cons_zero, Nat.zero_mul, Nat.add_zero, if_pos h]
      | succ j =>
        rw [List.getElem?_cons_succ, ih (i + chunk_size) j (by omega)]
        have e : i + chunk_size + j * chunk_size = i + (j + 1) * chunk_size := by ring
        rw [e]
    · rw [createChunksLoop, if_neg h, if_neg (by omega)]
      simp

/-- C3, amended with the hypothesis context_size <= chunk_size: the first
chunk's previous_context is empty, and for every later chunk its
previous_context equals the last min(context_size, size of previous chunk)
entries of the previous chunk. -/
theorem create_chunks_context (chunk_size context_size : Nat) (entries : List SRTEntry)
    (hctx : context_size ≤ chunk_size) (chunks : List Chunk)
    (hc : create_chunks chunk_size context_size entries = some chunks) :
    (∀ c0, chunks[0]? = some c0 → c0.previous_context = []) ∧
    (∀ j cj cj1, chunks[j]? = some cj → chunks[j + 1]? = some cj1 →
      cj1.previous_context = cj.entries.drop (cj.entries.length - context_size)) := by
  rw [create_chunks] at hc
  by_cases h1 : entries.isEmpty
  · rw [if_pos h1] at hc
    exact Option.noConfusion hc
  rw [if_neg h1] at hc
  by_cases h2 : chunk_size = 0
  · rw [if_pos h2] at hc
    exact Option.noConfusion hc
  rw [if_neg h2] at hc
  have hcs : 0 < chunk_size := Nat.pos_of_ne_zero h2
  injection hc with hc
  subst hc
  have hget : ∀ j, (createChunksLoop chunk_size context_size entries 0 entries.length)[j]? =
      if j * chunk_size < entries.length then
        some (chunkAt chunk_size context_size entries (j * chunk_size))
      else none := by
    intro j
    simpa using createChunksLoop_getElem chunk_size context_size entries hcs
      entries.length 0 j (by omega)
  constructor
  · intro c0 h0
    rw [hget 0, Nat.zero_mul] at h0
    by_cases hl : 0 < entries.length
    · rw [if_pos hl] at h0
      injection h0 with h0
      subst h0
      simp [chunkAt]
    · rw [if_neg hl] at h0
      exact Option.noConfusion h0
  · intro j cj cj1 hj hj1
    rw [hget j] at hj
    rw [hget (j + 1)] at hj1
    have emul : (j + 1) * chunk_size = j * chunk_size + chunk_size := by ring
    have hlt1 : (j + 1) * chunk_size < entries.length := by
      by_contra hcon
      rw [if_neg hcon] at hj1
      exact Option.noConfusion hj1
    have hltj : j * chunk_size < entries.length := by omega
    rw [if_pos hltj] at hj
    injection hj with hj
    subst hj
    rw [if_pos hlt1] at hj1
    injection hj1 with hj1
    subst hj1
    have hfull : ((entries.drop (j * chunk_size)).take chunk_size).length = chunk_size := by
      rw [List.length_take, List.length_drop]
      omega
    simp only [chunkAt]
    rw [if_pos (by omega : 0 < (j + 1) * chunk_size)]
    rw [hfull, List.take_drop, List.drop_drop, emul]
    congr 1
    omega

/-- Counterexample to C3 as stated: with chunk_size 1 and context_size 2 the
third chunk's previous_context spans the two previous chunks, so it is not
the last min(context_size, size of chunk 2) entries of chunk 2. -/
theorem create_chunks_context_cex :
    create_chunks 1 2 [⟨"1", "t1", "a"⟩, ⟨"2", "t2", "b"⟩, ⟨"3", "t3", "c"⟩] =
      some [Chunk.mk [⟨"1", "t1", "a"⟩] 1 3 [],
        Chunk.mk [⟨"2", "t2", "b"⟩] 2 3 [⟨"1", "t1", "a"⟩],
        Chunk.mk [⟨"3", "t3", "c"⟩] 3 3 [⟨"1", "t1", "a"⟩, ⟨"2", "t2", "b"⟩]] ∧
      (Chunk.mk [⟨"3", "t3", "c"⟩] 3 3 [⟨"1", "t1", "a"⟩, ⟨"2", "t2", "b"⟩]).previous_context ≠
        (Chunk.mk [⟨"2", "t2", "b"⟩] 2 3 [⟨"1", "t1", "a"⟩]).entries.drop
          ((Chunk.mk [⟨"2", "t2", "b"⟩] 2 3 [⟨"1", "t1", "a"⟩]).entries.length - 2) := by
  decide

/-- Witness for the amended C3 at chunk_size 2, context_size 1 on three
entries. -/
theorem create_chunks_context_witness :
    (Chunk.mk [⟨"3", "t3", "c"⟩] 2 2 [⟨"2", "t2", "b"⟩]).previous_context =
      (Chunk.mk [⟨"1", "t1", "a"⟩, ⟨"2", "t2", "b"⟩] 1 2 []).entries.drop
        ((Chunk.mk [⟨"1", "t1", "a"⟩, ⟨"2", "t2", "b"⟩] 1 2 []).entries.length - 1) :=
  (create_chunks_context 2 1 [⟨"1", "t1", "a"⟩, ⟨"2", "t2", "b"⟩, ⟨"3", "t3", "c"⟩]
      (by decide)
      [Chunk.mk [⟨"1", "t1", "a"⟩, ⟨"2", "t2", "b"⟩] 1 2 [],
        Chunk.mk [⟨"3", "t3", "c"⟩] 2 2 [⟨"2", "t2", "b"⟩]]
      (by decide)).2 0 _ _ (by decide) (by decide)

/-- Python str.strip() default whitespace characters (the ASCII ones the
responses can contain). -/
def isPySpace (c : Char) : Bool :=
  c == ' ' || c == '\t' || c == '\n' || c == '\r' || c == '\x0b' || c == '\x0c'

/-- line.strip(): remove leading and trailing whitespace. -/
def pyStripList (cs : List Char) : List Char :=
  ((cs.dropWhile isPySpace).reverse.dropWhile isPySpace).reverse

/-- text.split(sep) for a one-character separator: every occurrence splits,
empty pieces are kept. -/
def splitOnChar (sep : Char) : List Char → List (List Char)
  | [] => [[]]
  | c :: cs =>
    match splitOnChar sep cs with
    | [] => [[]]
    | p :: ps => if c = sep then [] :: p :: ps else (c :: p) :: ps

/-- The line preprocessing of _parse_response (translator.py line 155):
response_text.strip().split('\n'), each line stripped, empty lines dropped. -/
def pyLines (response_text : String) : List (List Char) :=
  ((splitOnChar '\n' (pyStripList response_text.toList)).map pyStripList).filter
    (fun l => !l.isEmpty)

/-- int(group(1)) on a digit run. -/
def digitsToNat (ds : List Char) : Nat :=
  ds.foldl (fun n c => n * 10 + (c.toNat - '0'.toNat)) 0

/-- Embeds re.match(of the raw pattern (\d+)[.)] followed by optional
whitespace and (.+) anchored at line start) together with int(match.group(1))
and match.group(2).strip() from translator.py lines 164-167. The regex
matches exactly when the line starts with one or more digits, the next
character is a period or closing parenthesis, and at least one character
follows (a dot matches any character of the newline-free line, including
blanks, so only an empty remainder fails). group(2) is the remainder after
the greedy whitespace run and .strip() also removes trailing whitespace, so
the stored text is the stripped remainder. -/
def lineMatch (line : List Char) : Option (Nat × List Char) :=
  let ds := line.takeWhile Char.isDigit
  match line.dropWhile Char.isDigit with
  | [] => none
  | sep :: rest =>
    if ds.isEmpty then none
    else if sep = '.' ∨ sep = ')' then
      if rest.isEmpty then none else some (digitsToNat ds, pyStripList rest)
    else none

/-- Python dict assignment translations[num] = text: replace in place when
the key is present (insertion order preserved), otherwise append. -/
def dictInsert (d : List (Nat × List Char)) (k : Nat) (v : List Char) :
    List (Nat × List Char) :=
  if d.any (fun p => p.1 == k) then
    d.map (fun p => if p.1 == k then (k, v) else p)
  else d ++ [(k, v)]

/-- Python dict membership and indexing for the translations mapping. -/
def dictLookup (d : List (Nat × List Char)) (k : Nat) : Option (List Char) :=
  (d.find? (fun p => p.1 == k)).map (fun p => p.2)

/-- One iteration of the for-loop of _parse_response (translator.py lines
161-174): a line matching the numbered pattern with ordinal inside
[1, expected_count] is stored (overwriting an earlier line with the same
ordinal); out-of-range and non-matching lines are only logged. -/
def dictStep (expected_count : Nat) (d : List (Nat × List Char)) (line : List Char) :
    List (Nat × List Char) :=
  match lineMatch line with
  | some (num, text) =>
    if 1 ≤ num ∧ num ≤ expected_count then dictInsert d num text else d
  | none => d

/-- The whole for-loop of _parse_response building the ordinal-to-text
mapping from the preprocessed lines. -/
def buildDict (expected_count : Nat) (lines : List (List Char)) :
    List (Nat × List Char) :=
  lines.foldl (dictStep expected_count) []

/-- The missing list of translator.py line 178. -/
def missingOrdinals (expected_count : Nat) (d : List (Nat × List Char)) : List Nat :=
  (List.range' 1 expected_count).filter (fun i => (dictLookup d i).isNone)

/-- The error message of translator.py lines 180-183; the missing and found
previews are both bounded to 10 elements. -/
def parseErrorMsg (expected_count : Nat) (d : List (Nat × List Char)) : String :=
  let missing := missingOrdinals expected_count d
  let found := List.insertionSort (· ≤ ·) (d.map (fun p => p.1))
  "Expected " ++ toString expected_count ++ " translations, got " ++
    toString d.length ++ ". " ++
    (if !missing.isEmpty then "Missing numbers: " ++ toString (missing.take 10) ++ ". "
     else "") ++
    "Found numbers: " ++ toString (if found.length > 10 then found.take 10 else found)

/-- Embeds GeminiTranslator._parse_response (translator.py lines 136-192).
Except.error renders the raised TranslationError. The success branch reads
translations[i] for i in range(1, expected_count + 1); the length check
together with the in-range filter makes every lookup succeed, so the
unreachable KeyError is rendered by getD. -/
def parse_response (response_text : String) (expected_count : Nat) :
    Except String (List String) :=
  let translations := buildDict expected_count (pyLines response_text)
  if translations.length ≠ expected_count then
    Except.error (parseErrorMsg expected_count translations)
  else
    Except.ok ((List.range' 1 expected_count).map
      (fun i => String.mk ((dictLookup translations i).getD [])))

theorem dictLookup_dictInsert (d : List (Nat × List Char)) (k : Nat) (v : List Char)
    (k' : Nat) :
    dictLookup (dictInsert d k v) k' = if k' = k then some v else dictLookup d k' := by
  unfold dictInsert dictLookup
  by_cases hmem : d.any (fun p => p.1 == k) = true
  · rw [if_pos hmem, List.find?_map]
    have hpred : ((fun p : Nat × List Char => p.1 == k') ∘
        (fun p : Nat × List Char => if p.1 == k then (k, v) else p)) =
        (fun p : Nat × List Char => p.1 == k') := by
      funext p
      by_cases hp : p.1 = k
      · by_cases hk : k' = k <;> simp [Function.comp, hp, hk, eq_comm]
      · simp [Function.comp, hp]
    rw [hpred]
    by_cases hk : k' = k
    · subst hk
      rcases hfind : d.find? (fun p => p.1 == k') with _ | p1
      · exfalso
        rw [List.find?_eq_none] at hfind
        obtain ⟨p0, hp0mem, hp0⟩ := List.any_eq_true.mp hmem
        exact hfind p0 hp0mem hp0
      · have h2 : p1.1 = k' := by simpa using List.find?_some hfind
        rw [hfind]
        simp [h2]
    · rcases hfind : d.find? (fun p => p.1 == k') with _ | p1
      · rw [hfind]
        simp [hk]
      · have h2 : p1.1 = k' := by simpa using List.find?_some hfind
        rw [hfind]
        simp [Function.comp, hk, h2]
  · rw [if_neg hmem, List.find?_append]
    have hnone : d.find? (fun p => p.1 == k) = none := by
      rw [List.find?_eq_none]
      intro x hx hpx
      exact hmem (List.any_eq_true.mpr ⟨x, hx, hpx⟩)
    by_cases hk : k' = k
    · subst hk
      rw [hnone, List.find?_cons_of_pos _ (by simp)]
      simp
    · have hsingle : List.find? (fun p => p.1 == k') [(k, v)] = none := by
        rw [List.find?_eq_none]
        intro x hx
        rw [List.mem_singleton] at hx
        subst hx
        intro h
        rw [beq_iff_eq] at h
        exact hk h.symm
      simp [hsingle, hk]

theorem dictInsert_keys (d : List (Nat × List Char)) (k : Nat) (v : List Char) :
    (dictInsert d k v).map Prod.fst =
      if d.any (fun p => p.1 == k) then d.map Prod.fst else d.map Prod.fst ++ [k] := by
  unfold dictInsert
  by_cases hmem : d.any (fun p => p.1 == k) = true
  · rw [if_pos hmem, if_pos hmem, List.map_map]
    apply List.map_congr_left
    intro p hp
    by_cases h : p.1 = k <;> simp [Function.comp, h]
  · rw [if_neg hmem, if_neg hmem]
    simp

theorem dictStep_keys_nodup (n : Nat) (d : List (Nat × List Char)) (l : List Char)
    (hnd : (d.map Prod.fst).Nodup) : ((dictStep n d l).map Prod.fst).Nodup := by
  rcases hm : lineMatch l with _ | ⟨num, text⟩ <;> simp only [dictStep, hm]
  · exact hnd
  · by_cases hr : 1 ≤ num ∧ num ≤ n
    · rw [if_pos hr, dictInsert_keys]
      by_cases hmem : d.any (fun q => q.1 == num) = true
      · rw [if_pos hmem]
        exact hnd
      · rw [if_neg hmem]
        have hnotin : num ∉ d.map Prod.fst := by
          intro hin
          obtain ⟨q, hq, hq2⟩ := List.mem_map.mp hin
          exact hmem (List.any_eq_true.mpr ⟨q, hq, by simp [hq2]⟩)
        simp [List.nodup_append, hnd, hnotin]
    · rw [if_neg hr]
      exact hnd

theorem dictStep_keys_range (n : Nat) (d : List (Nat × List Char)) (l : List Char)
    (hr0 : ∀ k ∈ d.map Prod.fst, 1 ≤ k ∧ k ≤ n) :
    ∀ k ∈ (dictStep n d l).map Prod.fst, 1 ≤ k ∧ k ≤ n := by
  rcases hm : lineMatch l with _ | ⟨num, text⟩ <;> simp only [dictStep, hm]
  · exact hr0
  · by_cases hr : 1 ≤ num ∧ num ≤ n
    · rw [if_pos hr, dictInsert_keys]
      by_cases hmem : d.any (fun q => q.1 == num) = true
      · rw [if_pos hmem]
        exact hr0
      · rw [if_neg hmem]
        intro k hk
        rcases List.mem_append.mp hk with h | h
        · exact hr0 k h
        · rw [List.mem_singleton] at h
          subst h
          exact hr
    · rw [if_neg hr]
      exact hr0

theorem foldl_dictStep_inv (n : Nat) (lines : List (List Char)) :
    ∀ d, ((d.map Prod.fst).Nodup ∧ ∀ k ∈ d.map Prod.fst, 1 ≤ k ∧ k ≤ n) →
      (((lines.foldl (dictStep n) d).map Prod.fst).Nodup ∧
        ∀ k ∈ (lines.foldl (dictStep n) d).map Prod.fst, 1 ≤ k ∧ k ≤ n) := by
  induction lines with
  | nil => exact fun d h => h
  | cons l ls ih =>
    intro d h
    rw [List.foldl_cons]
    exact ih _ ⟨dictStep_keys_nodup n d l h.1, dictStep_keys_range n d l h.2⟩

theorem buildDict_keys_nodup (n : Nat) (lines : List (List Char)) :
    ((buildDict n lines).map Prod.fst).Nodup :=
  (foldl_dictStep_inv n lines [] ⟨List.nodup_nil, by simp⟩).1

theorem buildDict_keys_range (n : Nat) (lines : List (List Char)) :
    ∀ k ∈ (buildDict n lines).map Prod.fst, 1 ≤ k ∧ k ≤ n :=
  (foldl_dictStep_inv n lines [] ⟨List.nodup_nil, by simp⟩).2

theorem dictLookup_isSome_iff_mem (d : List (Nat × List Char)) (k : Nat) :
    (dictLookup d k).isSome ↔ k ∈ d.map Prod.fst := by
  unfold dictLookup
  rw [Option.isSome_map']
  rw [List.find?_isSome]
  constructor
  · rintro ⟨p, hp, hpk⟩
    exact List.mem_map.mpr ⟨p, hp, by simpa using hpk⟩
  · intro hk
    obtain ⟨p, hp, hpk⟩ := List.mem_map.mp hk
    exact ⟨p, hp, by simp [hpk]⟩

theorem dict_length_eq_iff (n : Nat) (d : List (Nat × List Char))
    (hnd : (d.map Prod.fst).Nodup) (hr : ∀ k ∈ d.map Prod.fst, 1 ≤ k ∧ k ≤ n) :
    d.length = n ↔ ∀ k, 1 ≤ k → k ≤ n → (dictLookup d k).isSome := by
  have hsub : List.Subperm (d.map Prod.fst) (List.range' 1 n) := by
    apply List.subperm_of_subset hnd
    intro k hk
    obtain ⟨hk1, hk2⟩ := hr k hk
    exact List.mem_range'_1.mpr ⟨hk1, by omega⟩
  have hlen : (d.map Prod.fst).length = d.length := List.length_map d Prod.fst
  constructor
  · intro heq k h1 h2
    have hperm : List.Perm (d.map Prod.fst) (List.range' 1 n) :=
      hsub.perm_of_length_le (by rw [List.length_range', hlen, heq])
    rw [dictLookup_isSome_iff_mem]
    exact hperm.mem_iff.mpr (List.mem_range'_1.mpr ⟨h1, by omega⟩)
  · intro hall
    have hsub2 : List.Subperm (List.range' 1 n) (d.map Prod.fst) := by
      apply List.subperm_of_subset (List.nodup_range' 1 n 1 (by norm_num))
      intro k hk
      obtain ⟨hk1, hk2⟩ := List.mem_range'_1.mp hk
      exact (dictLookup_isSome_iff_mem d k).mp (hall k hk1 (by omega))
    have l1 := hsub.length_le
    have l2 := hsub2.length_le
    rw [List.length_range'] at l1 l2
    omega

theorem missingOrdinals_eq_nil_iff (n : Nat) (d : List (Nat × List Char)) :
    missingOrdinals n d = [] ↔ ∀ k, 1 ≤ k → k ≤ n → (dictLookup d k).isSome := by
  unfold missingOrdinals
  rw [List.filter_eq_nil_iff]
  constructor
  · intro h k h1 h2
    have hk := h k (List.mem_range'_1.mpr ⟨h1, by omega⟩)
    rcases hlk : dictLookup d k with _ | v
    · rw [hlk] at hk
      simp at hk
    · simp
  · intro h k hk
    obtain ⟨h1, h2⟩ := List.mem_range'_1.mp hk
    have hs := h k h1 (by omega)
    rcases hlk : dictLookup d k with _ | v
    · rw [hlk] at hs
      simp at hs
    · simp [hlk]

/-- C5: response parsing fails, with the message built from the bounded
missing-ordinal preview, exactly when the final mapping does not contain
every ordinal 1..expected_count; the two concrete cases show the error
naming a missing ordinal and the preview bounded to 10 entries. -/
theorem parse_response_missing_iff :
    (∀ t n, (parse_response t n =
        Except.error (parseErrorMsg n (buildDict n (pyLines t))) ↔
      missingOrdinals n (buildDict n (pyLines t)) ≠ [])) ∧
    parse_response "1. a\n3. c" 3 =
      Except.error "Expected 3 translations, got 2. Missing numbers: [2]. Found numbers: [1, 3]" ∧
    parse_response "" 15 =
      Except.error "Expected 15 translations, got 0. Missing numbers: [1, 2, 3, 4, 5, 6, 7, 8, 9, 10]. Found numbers: []" := by
  refine ⟨?_, rfl, rfl⟩
  intro t n
  set d := buildDict n (pyLines t) with hd
  have hnd := buildDict_keys_nodup n (pyLines t)
  have hrange := buildDict_keys_range n (pyLines t)
  rw [← hd] at hnd hrange
  have hiff := dict_length_eq_iff n d hnd hrange
  have hparse_err : parse_response t n = Except.error (parseErrorMsg n d) ↔
      d.length ≠ n := by
    simp only [parse_response]
    rw [← hd]
    by_cases hl : d.length ≠ n
    · rw [if_pos hl]
      simp [hl]
    · rw [if_neg hl]
      simp [hl]
  have hkey : d.length = n ↔ missingOrdinals n d = [] :=
    hiff.trans (missingOrdinals_eq_nil_iff n d).symm
  exact hparse_err.trans (not_iff_not.mpr hkey)

/-- Witness for C5 on an input with a covered mapping: no missing ordinal,
so parsing does not fail. -/
theorem parse_response_missing_iff_witness :
    ¬ (parse_response "1. x\n2. y" 2 =
      Except.error (parseErrorMsg 2 (buildDict 2 (pyLines "1. x\n2. y")))) :=
  fun h => absurd ((parse_response_missing_iff.1 "1. x\n2. y" 2).mp h) (by simp [pyLines]; rfl)

/-- C4: on success the parsed list has exactly expected_count entries and
position i holds the mapping value at ordinal i+1, so the output is ordered
by parsed ordinal, not by arrival order; the concrete case permutes arrival
order. -/
theorem parse_response_ordinal_order :
    (∀ t n res, parse_response t n = Except.ok res →
      res.length = n ∧ ∀ i, i < n →
        res[i]? = (dictLookup (buildDict n (pyLines t)) (i + 1)).map String.mk) ∧
    parse_response "1. a\n3. c\n2. b\n5. e\n4. d" 5 = Except.ok ["a", "b", "c", "d", "e"] := by
  refine ⟨?_, rfl⟩
  intro t n res hok
  set d := buildDict n (pyLines t) with hd
  have hnd := buildDict_keys_nodup n (pyLines t)
  have hrange := buildDict_keys_range n (pyLines t)
  rw [← hd] at hnd hrange
  simp only [parse_response] at hok
  rw [← hd] at hok
  by_cases hl : d.length ≠ n
  · rw [if_pos hl] at hok
    exact Except.noConfusion hok
  · rw [if_neg hl] at hok
    injection hok with hok
    have hlen : d.length = n := not_ne_iff.mp hl
    subst hok
    constructor
    · simp
    · intro i hi
      have hsome := (dict_length_eq_iff n d hnd hrange).mp hlen (i + 1) (by omega) (by omega)
      obtain ⟨v, hv⟩ := Option.isSome_iff_exists.mp hsome
      rw [List.getElem?_map, List.getElem?_range' 1 1 hi]
      have e : 1 + 1 * i = i + 1 := by ring
      simp only [Option.map_some', e, hv]
      rfl

/-- Witness for C4 at the permuted concrete response, position 0. -/
theorem parse_response_ordinal_order_witness :
    (["a", "b", "c", "d", "e"] : List String)[0]? =
      (dictLookup (buildDict 5 (pyLines "1. a\n3. c\n2. b\n5. e\n4. d")) (0 + 1)).map
        String.mk :=
  (parse_response_ordinal_order.1 "1. a\n3. c\n2. b\n5. e\n4. d" 5 ["a", "b", "c", "d", "e"]
    rfl).2 0 (by decide)

/-- The in-range numbered-line matches of a line list, in arrival order:
exactly the (ordinal, text) pairs that the loop of _parse_response stores. -/
def inRangeMatch (expected_count : Nat) (line : List Char) : Option (Nat × List Char) :=
  match lineMatch line with
  | some (num, text) =>
    if 1 ≤ num ∧ num ≤ expected_count then some (num, text) else none
  | none => none

/-- All stored (ordinal, text) pairs of a response, in arrival order. -/
def inRangeMatches (expected_count : Nat) (lines : List (List Char)) :
    List (Nat × List Char) :=
  lines.filterMap (inRangeMatch expected_count)

theorem dictStep_eq_inRangeMatch (n : Nat) (d : List (Nat × List Char)) (l : List Char) :
    dictStep n d l = match inRangeMatch n l with
      | some p => dictInsert d p.1 p.2
      | none => d := by
  rcases hm : lineMatch l with _ | ⟨num, text⟩ <;>
    simp only [dictStep, inRangeMatch, hm]
  by_cases hr : 1 ≤ num ∧ num ≤ n
  · rw [if_pos hr, if_pos hr]
  · rw [if_neg hr, if_neg hr]

theorem foldl_dictStep_lookup (n : Nat) :
    ∀ (lines : List (List Char)) (d : List (Nat × List Char)) (k : Nat),
      dictLookup (lines.foldl (dictStep n) d) k =
        (((inRangeMatches n lines).reverse.find? (fun p => p.1 == k)).map
          (fun p => p.2)).or (dictLookup d k) := by
  intro lines
  induction lines with
  | nil =>
    intro d k
    simp [inRangeMatches]
  | cons l ls ih =>
    intro d k
    rw [List.foldl_cons, ih, dictStep_eq_inRangeMatch]
    rcases hm : inRangeMatch n l with _ | ⟨num, text⟩
    · simp only [hm, inRangeMatches, List.filterMap_cons, hm]
    · simp only [hm, inRangeMatches, List.filterMap_cons]
      rw [dictLookup_dictInsert, List.reverse_cons, List.find?_append]
      have hsingle : List.find? (fun p => p.1 == k) [(num, text)] =
          if num = k then some (num, text) else none := by
        by_cases h : num = k
        · rw [if_pos h]
          exact List.find?_cons_of_pos _ (by simp [h])
        · rw [if_neg h]
          rw [List.find?_cons_of_neg _ (by simp [h])]
          rfl
      rw [hsingle]
      by_cases hk : num = k
      · rw [if_pos hk, if_pos hk.symm]
        rcases hfind : (List.filterMap (inRangeMatch n) ls).reverse.find?
            (fun p => p.1 == k) with _ | p1 <;> simp [hfind]
      · rw [if_neg hk, if_neg (fun h => hk h.symm)]
        rcases hfind : (List.filterMap (inRangeMatch n) ls).reverse.find?
            (fun p => p.1 == k) with _ | p1 <;> simp [hfind]

/-- C9: the final ordinal-to-text mapping holds, at every ordinal, the text
of the last stored line with that ordinal (earlier in-range duplicates are
silently overwritten), and a response with a duplicated in-range ordinal
still parses successfully, returning the later text. -/
theorem parse_response_last_duplicate_wins :
    (∀ t n k, dictLookup (buildDict n (pyLines t)) k =
      ((inRangeMatches n (pyLines t)).reverse.find? (fun p => p.1 == k)).map
        (fun p => p.2)) ∧
    parse_response "1. a\n2. b\n2. c" 2 = Except.ok ["a", "c"] := by
  refine ⟨?_, rfl⟩
  intro t n k
  unfold buildDict
  rw [foldl_dictStep_lookup]
  simp [dictLookup]

theorem isPySpace_of_isDigit (c : Char) (h : c.isDigit = true) : isPySpace c = false := by
  rcases Bool.eq_false_or_eq_true (isPySpace c) with ht | hf
  · exfalso
    simp only [isPySpace, Bool.or_eq_true, beq_iff_eq] at ht
    rcases ht with (((((h1 | h1) | h1) | h1) | h1) | h1) <;> subst h1 <;>
      exact absurd h (by decide)
  · exact hf

theorem dropWhile_head_not {α : Type} (p : α → Bool) :
    ∀ (l : List α) (c : α) (rest : List α), l.dropWhile p = c :: rest → p c = false := by
  intro l
  induction l with
  | nil => intro c rest h; exact absurd h (by simp)
  | cons a l ih =>
    intro c rest h
    rw [List.dropWhile_cons] at h
    by_cases ha : p a = true
    · rw [if_pos ha] at h
      exact ih c rest h
    · rw [if_neg ha] at h
      injection h with h1 h2
      subst h1
      exact Bool.eq_false_iff.mpr ha

theorem pyStripList_getLast_not_space (l : List Char) (c : Char)
    (h : (pyStripList l).getLast? = some c) : isPySpace c = false := by
  unfold pyStripList at h
  rw [List.getLast?_reverse] at h
  rcases hdw : ((l.dropWhile isPySpace).reverse.dropWhile isPySpace) with _ | ⟨c0, rest⟩
  · rw [hdw] at h
    exact Option.noConfusion h
  · rw [hdw] at h
    injection h with h
    subst h
    exact dropWhile_head_not isPySpace _ _ _ hdw

theorem pyStripList_ne_nil_of_mem (l : List Char) (c : Char) (hc : c ∈ l)
    (hns : isPySpace c = false) : pyStripList l ≠ [] := by
  intro hnil
  unfold pyStripList at hnil
  rw [List.reverse_eq_nil_iff, List.dropWhile_eq_nil_iff] at hnil
  have hall : ∀ a ∈ l.dropWhile isPySpace, isPySpace a = true := by
    intro a ha
    exact hnil a (List.mem_reverse.mpr ha)
  have hc2 : c ∈ l.takeWhile isPySpace ++ l.dropWhile isPySpace := by
    rw [List.takeWhile_append_dropWhile]
    exact hc
  rcases List.mem_append.mp hc2 with hmem | hmem
  · exact absurd (List.mem_takeWhile_imp hmem) (by simp [hns])
  · exact absurd (hall c hmem) (by simp [hns])

theorem lineMatch_text_ne_nil (l : List Char) (x : List Char) (num : Nat)
    (text : List Char) (hl : l = pyStripList x)
    (hm : lineMatch l = some (num, text)) : text ≠ [] := by
  simp only [lineMatch] at hm
  rcases hdrop : l.dropWhile Char.isDigit with _ | ⟨sep, rest⟩
  · simp [hdrop] at hm
  simp only [hdrop] at hm
  by_cases h1 : (l.takeWhile Char.isDigit).isEmpty = true
  · rw [if_pos h1] at hm
    exact Option.noConfusion hm
  rw [if_neg h1] at hm
  by_cases h2 : sep = '.' ∨ sep = ')'
  · rw [if_pos h2] at hm
    by_cases h3 : rest.isEmpty = true
    · rw [if_pos h3] at hm
      exact Option.noConfusion hm
    · rw [if_neg h3] at hm
      injection hm with hm
      injection hm with hm1 hm2
      subst hm2
      have hrest : rest ≠ [] := by simpa using h3
      have hsplit : l = (l.takeWhile Char.isDigit ++ [sep]) ++ rest := by
        rw [List.append_assoc, List.singleton_append, ← hdrop,
          List.takeWhile_append_dropWhile]
      obtain ⟨c, hc⟩ := Option.isSome_iff_exists.mp
        (List.getLast?_isSome.mpr hrest)
      have hlast : l.getLast? = some c := by
        rw [hsplit, List.getLast?_append, hc]
        rfl
      have hcl : isPySpace c = false := by
        apply pyStripList_getLast_not_space x c
        rw [← hl]
        exact hlast
      exact pyStripList_ne_nil_of_mem rest c (List.mem_of_getLast?_eq_some hc) hcl
  · rw [if_neg h2] at hm
    exact Option.noConfusion hm

theorem dictInsert_values (d : List (Nat × List Char)) (k : Nat) (v : List Char)
    (P : List Char → Prop) (hd : ∀ p ∈ d, P p.2) (hv : P v) :
    ∀ p ∈ dictInsert d k v, P p.2 := by
  unfold dictInsert
  by_cases hmem : d.any (fun p => p.1 == k) = true
  · rw [if_pos hmem]
    intro p hp
    obtain ⟨q, hq, hq2⟩ := List.mem_map.mp hp
    by_cases h : (q.1 == k) = true
    · rw [if_pos h] at hq2
      subst hq2
      exact hv
    · rw [if_neg h] at hq2
      subst hq2
      exact hd q hq
  · rw [if_neg hmem]
    intro p hp
    rcases List.mem_append.mp hp with h | h
    · exact hd p h
    · rw [List.mem_singleton] at h
      subst h
      exact hv

theorem foldl_dictStep_values (n : Nat) (P : List Char → Prop) :
    ∀ (lines : List (List Char)) (d : List (Nat × List Char)),
      (∀ p ∈ d, P p.2) →
      (∀ l ∈ lines, ∀ num text, lineMatch l = some (num, text) → P text) →
      ∀ p ∈ lines.foldl (dictStep n) d, P p.2 := by
  intro lines
  induction lines with
  | nil =>
    intro d hd _ p hp
    exact hd p hp
  | cons l ls ih =>
    intro d hd hl p hp
    rw [List.foldl_cons] at hp
    have hstep : ∀ p ∈ dictStep n d l, P p.2 := by
      rcases hm : lineMatch l with _ | ⟨num, text⟩ <;> simp only [dictStep, hm]
      · exact hd
      · by_cases hr : 1 ≤ num ∧ num ≤ n
        · rw [if_pos hr]
          exact dictInsert_values d num text P hd (hl l (List.mem_cons_self l ls) num text hm)
        · rw [if_neg hr]
          exact hd
    exact ih (dictStep n d l) hstep
      (fun l2 h2 num text => hl l2 (List.mem_cons_of_mem l h2) num text) p hp

theorem buildDict_values_ne_nil (n : Nat) (t : String) :
    ∀ p ∈ buildDict n (pyLines t), p.2 ≠ [] := by
  apply foldl_dictStep_values n (fun v => v ≠ []) (pyLines t) [] (by simp)
  intro l hl num text hm
  unfold pyLines at hl
  obtain ⟨hmem, hne⟩ := List.mem_filter.mp hl
  obtain ⟨x, hx, hx2⟩ := List.mem_map.mp hmem
  exact lineMatch_text_ne_nil l x num text hx2.symm hm

/-- C10: a line made of an ordinal, a separator and only trailing whitespace
is discarded by the numbered-line pattern after line stripping; consequently
no successfully parsed translation is ever the empty string, and a response
whose ordinal-2 line is bare fails with the error naming 2 as missing. -/
theorem parse_response_no_empty_translation :
    (∀ ds ws sep, ds ≠ [] → (∀ c ∈ ds, c.isDigit = true) →
      (sep = '.' ∨ sep = ')') → (∀ c ∈ ws, isPySpace c = true) →
      lineMatch (pyStripList (ds ++ sep :: ws)) = none) ∧
    (∀ t n res, parse_response t n = Except.ok res → ∀ s ∈ res, s ≠ "") ∧
    parse_response "1. a\n2.\n3. c" 3 =
      Except.error "Expected 3 translations, got 2. Missing numbers: [2]. Found numbers: [1, 3]" := by
  refine ⟨?_, ?_, rfl⟩
  · intro ds ws sep hne hdig hsep hws
    have hsep_ns : isPySpace sep = false := by
      rcases hsep with h | h <;> subst h <;> decide
    have hsep_nd : sep.isDigit = false := by
      rcases hsep with h | h <;> subst h <;> decide
    have hstrip : pyStripList (ds ++ sep :: ws) = ds ++ [sep] := by
      unfold pyStripList
      have h1 : (ds ++ sep :: ws).dropWhile isPySpace = ds ++ sep :: ws := by
        rcases ds with _ | ⟨d0, ds'⟩
        · exact absurd rfl hne
        · rw [List.cons_append, List.dropWhile_cons_of_neg
            (by simp [isPySpace_of_isDigit d0 (hdig d0 (List.mem_cons_self d0 ds'))])]
      rw [h1]
      have h2 : (ds ++ sep :: ws).reverse = ws.reverse ++ sep :: ds.reverse := by
        rw [show ds ++ sep :: ws = (ds ++ [sep]) ++ ws by simp, List.reverse_append,
          List.reverse_append]
        simp
      rw [h2, List.dropWhile_append_of_pos
          (fun a ha => hws a (List.mem_reverse.mp ha)),
        List.dropWhile_cons_of_neg (by simp [hsep_ns]), List.reverse_cons,
        List.reverse_reverse]
    rw [hstrip]
    have hdw : (ds ++ [sep]).dropWhile Char.isDigit = [sep] := by
      rw [List.dropWhile_append_of_pos hdig, List.dropWhile_cons_of_neg (by simp [hsep_nd])]
    simp only [lineMatch, hdw]
    by_cases hds : ((ds ++ [sep]).takeWhile Char.isDigit).isEmpty = true
    · rw [if_pos hds]
    · rw [if_neg hds, if_pos hsep, if_pos (by rfl : ([] : List Char).isEmpty = true)]
  · intro t n res hok s hs
    set d := buildDict n (pyLines t) with hd
    have hnd := buildDict_keys_nodup n (pyLines t)
    have hrange := buildDict_keys_range n (pyLines t)
    rw [← hd] at hnd hrange
    simp only [parse_response] at hok
    rw [← hd] at hok
    by_cases hl : d.length ≠ n
    · rw [if_pos hl] at hok
      exact Except.noConfusion hok
    rw [if_neg hl] at hok
    injection hok with hok
    have hlen : d.length = n := not_ne_iff.mp hl
    subst hok
    obtain ⟨i, hi, hs2⟩ := List.mem_map.mp hs
    obtain ⟨hi1, hi2⟩ := List.mem_range'_1.mp hi
    have hsome := (dict_length_eq_iff n d hnd hrange).mp hlen i hi1 (by omega)
    obtain ⟨v, hv⟩ := Option.isSome_iff_exists.mp hsome
    have hvmem : ∃ p ∈ d, p.2 = v := by
      unfold dictLookup at hv
      rcases hfind : d.find? (fun p => p.1 == i) with _ | p1
      · rw [hfind] at hv
        exact Option.noConfusion hv
      · rw [hfind] at hv
        injection hv with hv
        exact ⟨p1, List.mem_of_find?_eq_some hfind, hv⟩
    obtain ⟨p, hp, hpv⟩ := hvmem
    have hpmem : p ∈ buildDict n (pyLines t) := by
      rw [← hd]
      exact hp
    have hvne : v ≠ [] := by
      rw [← hpv]
      exact buildDict_values_ne_nil n t p hpmem
    rw [← hs2]
    simp only [hv, Option.getD_some]
    intro hcontra
    have hnil : v = [] := by
      have := congrArg String.data hcontra
      simpa using this
    exact hvne hnil

/-- Witness for C10 at the bare line consisting of the digit 2, a period and
one trailing blank. -/
theorem parse_response_no_empty_translation_witness :
    lineMatch (pyStripList (['2'] ++ '.' :: [' '])) = none :=
  parse_response_no_empty_translation.1 ['2'] [' '] '.' (by decide) (by decide)
    (Or.inl rfl) (by decide)

/-- Outcome of one remote-call attempt inside _translate_chunk_with_retry
(translator.py lines 266-331): success with the parsed translations,
a rate-limit error (RateLimitError), a timeout (asyncio.TimeoutError), or a
TranslationError (parsing/validation failures and the wrapped catch-all of
lines 318-331, none of which are retried). -/
inductive AttemptOutcome where
  | ok (v : List String)
  | rateLimit
  | timeout
  | transError
deriving DecidableEq

/-- Terminal result of the retry wrapper together with the attempts made and
the backoff delays slept, in order. -/
structure RetryRun where
  attempts : Nat
  delays : List Nat
  result : Option (List String)
deriving DecidableEq

/-- tenacity wait_exponential(multiplier=1, min=2, max=10): the delay slept
before the attempt following failed attempt number a. -/
def waitExp (a : Nat) : Nat := max 2 (min (2 ^ (a - 1)) 10)

/-- The retry driver of the tenacity decorator at translator.py lines
261-265: stop_after_attempt(3) and retry_if_exception_type on
(asyncio.TimeoutError, RateLimitError). The budget argument counts the
attempts still allowed (3 at the start); outcomes gives the result of each
numbered attempt. A retryable failure with budget left sleeps waitExp and
re-attempts; any other outcome is terminal. -/
def runAttempts (outcomes : Nat → AttemptOutcome) : Nat → Nat → RetryRun
  | a, 0 => ⟨a, [], none⟩
  | a, budget + 1 =>
    match outcomes a with
    | .ok v => ⟨a, [], some v⟩
    | .transError => ⟨a, [], none⟩
    | .rateLimit | .timeout =>
      if budget = 0 then ⟨a, [], none⟩
      else
        let r := runAttempts outcomes (a + 1) budget
        ⟨r.attempts, waitExp a :: r.delays, r.result⟩

/-- Embeds _translate_chunk_with_retry as seen through its retry decorator:
first attempt is number 1 and at most 3 attempts are allowed. -/
def translate_chunk_with_retry (outcomes : Nat → AttemptOutcome) : RetryRun :=
  runAttempts outcomes 1 3

theorem runAttempts_spec (outcomes : Nat → AttemptOutcome) :
    ∀ budget a, 1 ≤ budget →
      a ≤ (runAttempts outcomes a budget).attempts ∧
      (runAttempts outcomes a budget).attempts ≤ a + budget - 1 ∧
      (runAttempts outcomes a budget).delays.length =
        (runAttempts outcomes a budget).attempts - a ∧
      (∀ k, a ≤ k → k < (runAttempts outcomes a budget).attempts →
        outcomes k = .rateLimit ∨ outcomes k = .timeout) := by
  intro budget
  induction budget with
  | zero => intro a h; omega
  | succ budget ih =>
    intro a _
    rcases ho : outcomes a with v | _ | _ | _
    all_goals simp only [runAttempts, ho]
    · try dsimp only
      exact ⟨le_refl a, by omega, by simp, fun k hk1 hk2 => by omega⟩
    · by_cases hb : budget = 0
      · rw [if_pos hb]
        try dsimp only
        exact ⟨le_refl a, by omega, by simp, fun k hk1 hk2 => by omega⟩
      · rw [if_neg hb]
        try dsimp only
        obtain ⟨ih1, ih2, ih3, ih4⟩ := ih (a + 1) (by omega)
        refine ⟨by omega, by omega, ?_, ?_⟩
        · simp only [List.length_cons, ih3]
          omega
        · intro k hk1 hk2
          rcases Nat.eq_or_lt_of_le hk1 with he | hlt
          · left
            rw [← he, ho]
          · exact ih4 k (by omega) hk2
    · by_cases hb : budget = 0
      · rw [if_pos hb]
        try dsimp only
        exact ⟨le_refl a, by omega, by simp, fun k hk1 hk2 => by omega⟩
      · rw [if_neg hb]
        try dsimp only
        obtain ⟨ih1, ih2, ih3, ih4⟩ := ih (a + 1) (by omega)
        refine ⟨by omega, by omega, ?_, ?_⟩
        · simp only [List.length_cons, ih3]
          omega
        · intro k hk1 hk2
          rcases Nat.eq_or_lt_of_le hk1 with he | hlt
          · right
            rw [← he, ho]
          · exact ih4 k (by omega) hk2
    · try dsimp only
      exact ⟨le_refl a, by omega, by simp, fun k hk1 hk2 => by omega⟩

/-- C6: the per-chunk retry wrapper makes at most 3 attempts in total, every
non-final attempt failed with a rate-limit or timeout outcome (so a success,
a validation TranslationError or any wrapped error is terminal and never
retried), and the number of backoff delays is attempts - 1, so no delay
precedes the first attempt. -/
theorem translate_chunk_with_retry_policy (outcomes : Nat → AttemptOutcome) :
    (translate_chunk_with_retry outcomes).attempts ≤ 3 ∧
    (translate_chunk_with_retry outcomes).delays.length =
      (translate_chunk_with_retry outcomes).attempts - 1 ∧
    (∀ k, 1 ≤ k → k < (translate_chunk_with_retry outcomes).attempts →
      outcomes k = .rateLimit ∨ outcomes k = .timeout) := by
  obtain ⟨h1, h2, h3, h4⟩ := runAttempts_spec outcomes 3 1 (by omega)
  exact ⟨by simpa [translate_chunk_with_retry] using h2,
    by simpa [translate_chunk_with_retry] using h3,
    by simpa [translate_chunk_with_retry] using h4⟩

/-- Witness for C6: with a first-attempt rate limit and second-attempt
success, two attempts happen, one delay is slept and the retried attempt 1
is indeed retryable. -/
theorem translate_chunk_with_retry_policy_witness :
    (fun k => if k = 1 then AttemptOutcome.rateLimit else AttemptOutcome.ok ["x"]) 1 =
        AttemptOutcome.rateLimit ∨
      (fun k => if k = 1 then AttemptOutcome.rateLimit else AttemptOutcome.ok ["x"]) 1 =
        AttemptOutcome.timeout :=
  (translate_chunk_with_retry_policy
    (fun k => if k = 1 then AttemptOutcome.rateLimit else AttemptOutcome.ok ["x"])).2.2
    1 (by decide) (by decide)

/-- The message of the TranslationError raised at translator.py lines
377-379 for the first failed chunk, with i the 0-based position. -/
def chunkFailMsg (i n : Nat) (e : String) : String :=
  "Chunk " ++ toString (i + 1) ++ "/" ++ toString n ++ " failed: " ++ e

/-- The result-handling loop of translate_chunks_async (translator.py lines
374-380): walk the gathered per-chunk outcomes in order; the first exception
raises TranslationError, otherwise every translation list is collected. -/
def collectResults (n : Nat) : Nat → List (Except String (List String)) →
    Except String (List (List String))
  | _, [] => Except.ok []
  | i, Except.error e :: _ => Except.error (chunkFailMsg i n e)
  | i, Except.ok v :: rest =>
    match collectResults n (i + 1) rest with
    | Except.error m => Except.error m
    | Except.ok vs => Except.ok (v :: vs)

/-- Embeds translate_chunks_async (translator.py lines 333-382) over the
list of terminal per-chunk outcomes delivered by asyncio.gather with
return_exceptions=True: gather waits for every chunk task to reach a
terminal state, so the loop sees one Success (Except.ok) or Failed
(Except.error) outcome per chunk, in chunk order. -/
def translate_chunks_async (results : List (Except String (List String))) :
    Except String (List (List String)) :=
  collectResults results.length 0 results

theorem collectResults_spec (n : Nat) :
    ∀ (results : List (Except String (List String))) (i : Nat),
      ((∃ e, Except.error e ∈ results) →
        ∃ msg, collectResults n i results = Except.error msg) ∧
      (∀ ts, collectResults n i results = Except.ok ts →
        ts.length = results.length ∧ ∀ r ∈ results, ∃ v, r = Except.ok v) := by
  intro results
  induction results with
  | nil =>
    intro i
    constructor
    · rintro ⟨e, he⟩
      exact absurd he (List.not_mem_nil _)
    · intro ts hts
      simp only [collectResults] at hts
      injection hts with hts
      subst hts
      exact ⟨rfl, by simp⟩
  | cons r rs ih =>
    intro i
    rcases r with e | v
    · constructor
      · intro _
        exact ⟨chunkFailMsg i n e, by simp only [collectResults]⟩
      · intro ts hts
        simp only [collectResults] at hts
        exact Except.noConfusion hts
    · constructor
      · rintro ⟨e, he⟩
        rcases List.mem_cons.mp he with h | h
        · exact absurd h (by simp)
        · obtain ⟨msg, hmsg⟩ := (ih (i + 1)).1 ⟨e, h⟩
          refine ⟨msg, ?_⟩
          simp only [collectResults, hmsg]
      · intro ts hts
        simp only [collectResults] at hts
        rcases hrec : collectResults n (i + 1) rs with m | vs
        · rw [hrec] at hts
          exact Except.noConfusion hts
        · rw [hrec] at hts
          injection hts with hts
          subst hts
          obtain ⟨hlen, hall⟩ := (ih (i + 1)).2 vs hrec
          refine ⟨by simp [hlen], ?_⟩
          intro r2 hr
          rcases List.mem_cons.mp hr with h | h
          · exact ⟨v, h⟩
          · exact hall r2 h

/-- C1: once every chunk task has settled, a single failed chunk makes
translate_chunks_async raise TranslationError, returning no translations at
all (also not those of chunks that succeeded); conversely a returned list
means every chunk succeeded and contributes one translation list. -/
theorem translate_chunks_async_all_or_nothing
    (results : List (Except String (List String))) :
    ((∃ e, Except.error e ∈ results) →
      ∃ msg, translate_chunks_async results = Except.error msg) ∧
    (∀ ts, translate_chunks_async results = Except.ok ts →
      ts.length = results.length ∧ ∀ r ∈ results, ∃ v, r = Except.ok v) :=
  collectResults_spec results.length results 0

/-- Witness for C1: one succeeded chunk and one permanently failed chunk
make the whole call fail. -/
theorem translate_chunks_async_all_or_nothing_witness :
    ∃ msg,
      translate_chunks_async [Except.ok ["hello"], Except.error "validation failed"] =
        Except.error msg :=
  (translate_chunks_async_all_or_nothing
    [Except.ok ["hello"], Except.error "validation failed"]).1
    ⟨"validation failed", by simp⟩

/-- The inner reassembly loop of process_translation (main.py lines
244-251): entry j of a chunk is paired with translation j, keeping number
and timestamp and replacing only text; the guard j < len(translations)
makes the loop silently skip entries beyond the translation list. -/
def reassembleChunk : List SRTEntry → List String → List SRTEntry
  | [], _ => []
  | _ :: _, [] => []
  | e :: es, t :: ts =>
    { number := e.number, timestamp := e.timestamp, text := t } :: reassembleChunk es ts

/-- The reassembly of main.py lines 241-252: chunks are paired positionally
with their translation lists (translated_chunks[i] for chunk i) and the
per-chunk results are concatenated in order. -/
def reassemble (chunks : List Chunk) (translated_chunks : List (List String)) :
    List SRTEntry :=
  ((chunks.zip translated_chunks).map
    (fun p => reassembleChunk p.1.entries p.2)).flatten

theorem reassembleChunk_length : ∀ (es : List SRTEntry) (ts : List String),
    (reassembleChunk es ts).length = min es.length ts.length := by
  intro es
  induction es with
  | nil =>
    intro ts
    simp [reassembleChunk]
  | cons e es ih =>
    intro ts
    rcases ts with _ | ⟨t, ts⟩
    · simp [reassembleChunk]
    · simp only [reassembleChunk, List.length_cons, ih]
      omega

theorem reassembleChunk_getElem : ∀ (es : List SRTEntry) (ts : List String) (j : Nat)
    (h1 : j < es.length) (h2 : j < ts.length),
    (reassembleChunk es ts)[j]? =
      some { number := (es.get ⟨j, h1⟩).number, timestamp := (es.get ⟨j, h1⟩).timestamp,
             text := ts.get ⟨j, h2⟩ } := by
  intro es
  induction es with
  | nil =>
    intro ts j h1 h2
    exact absurd h1 (by simp)
  | cons e es ih =>
    intro ts j h1 h2
    rcases ts with _ | ⟨t, ts⟩
    · exact absurd h2 (by simp)
    · cases j with
      | zero => simp [reassembleChunk]
      | succ j =>
        simp only [reassembleChunk, List.getElem?_cons_succ]
        rw [ih ts j (by simpa using h1) (by simpa using h2)]
        rfl

/-- Counterexample to C7 as stated: a chunk of two entries paired with a
single translation does not make the reassembly of main.py fail with any
error; it produces output, silently dropping the second entry. -/
theorem reassemble_short_cex :
    reassemble [Chunk.mk [⟨"1", "t1", "k1"⟩, ⟨"2", "t2", "k2"⟩] 1 1 []] [["one"]] =
      [⟨"1", "t1", "one"⟩] ∧
    (reassemble [Chunk.mk [⟨"1", "t1", "k1"⟩, ⟨"2", "t2", "k2"⟩] 1 1 []]
        [["one"]]).length ≠
      (Chunk.mk [⟨"1", "t1", "k1"⟩, ⟨"2", "t2", "k2"⟩] 1 1 []).entries.length := by
  decide

/-- C7, amended: reassembly never fails; each chunk contributes
min(len(entries), len(translations)) output entries (a strictly shorter
translation list silently drops the surplus entries), and kept entry j
receives translation j with its original number and timestamp unchanged,
only the text replaced. -/
theorem reassemble_zip_truncates :
    (∀ (chunks : List Chunk) (translated_chunks : List (List String)),
      (reassemble chunks translated_chunks).length =
        ((chunks.zip translated_chunks).map
          (fun p => min p.1.entries.length p.2.length)).sum) ∧
    (∀ (es : List SRTEntry) (ts : List String) (j : Nat)
      (h1 : j < es.length) (h2 : j < ts.length),
      (reassembleChunk es ts)[j]? =
        some { number := (es.get ⟨j, h1⟩).number,
               timestamp := (es.get ⟨j, h1⟩).timestamp,
               text := ts.get ⟨j, h2⟩ }) := by
  constructor
  · intro chunks translated_chunks
    unfold reassemble
    rw [List.length_flatten, List.map_map]
    apply congrArg
    apply List.map_congr_left
    intro p _
    exact reassembleChunk_length p.1.entries p.2
  · exact reassembleChunk_getElem

/-- Witness for the amended C7 at a two-entry chunk with one translation:
position 0 is kept with original number and timestamp. -/
theorem reassemble_zip_truncates_witness :
    (reassembleChunk [⟨"1", "t1", "k1"⟩, ⟨"2", "t2", "k2"⟩] ["one"])[0]? =
      some ⟨"1", "t1", "one"⟩ := by
  have h := reassemble_zip_truncates.2 [⟨"1", "t1", "k1"⟩, ⟨"2", "t2", "k2"⟩] ["one"] 0
    (by decide) (by decide)
  simpa using h

/-- Consume one expected literal character. -/
def expectChar (c : Char) : List Char → Option (List Char)
  | [] => none
  | c0 :: rest => if c0 = c then some rest else none

/-- Consume one digit. -/
def expectDigit : List Char → Option (Char × List Char)
  | [] => none
  | c0 :: rest => if c0.isDigit then some (c0, rest) else none

/-- Embeds one time group of SBVParser.TIMESTAMP_PATTERN (sbv_parser.py
line 22): the regex piece matching a digit run, a colon, two digits, a
colon, two digits, a period and three digits at the current position. The
digit run is greedy and regex backtracking cannot alter it because the
following pattern character is a colon, which no digit equals. Returns the
matched characters and the rest of the input. -/
def matchTime (cs : List Char) : Option (List Char × List Char) :=
  let ds := cs.takeWhile Char.isDigit
  if ds.isEmpty then none
  else
    (expectChar ':' (cs.dropWhile Char.isDigit)).bind fun r1 =>
    (expectDigit r1).bind fun p1 =>
    (expectDigit p1.2).bind fun p2 =>
    (expectChar ':' p2.2).bind fun r4 =>
    (expectDigit r4).bind fun p3 =>
    (expectDigit p3.2).bind fun p4 =>
    (expectChar '.' p4.2).bind fun r7 =>
    (expectDigit r7).bind fun p5 =>
    (expectDigit p5.2).bind fun p6 =>
    (expectDigit p6.2).bind fun p7 =>
    some (ds ++ ':' :: p1.1 :: p2.1 :: ':' :: p3.1 :: p4.1 :: '.' :: p5.1 :: p6.1 ::
      [p7.1], p7.2)

/-- time_str.replace with period pattern and comma replacement, convert_time
at sbv_parser.py line 122; for a one-character pattern the substring replace
is a character map. -/
def pyReplaceDotComma (cs : List Char) : List Char :=
  cs.map (fun c => if c = '.' then ',' else c)

/-- The join on a colon of convert_time (sbv_parser.py line 127). -/
def intercalateChar (sep : Char) : List (List Char) → List Char
  | [] => []
  | [p] => p
  | p :: ps => p ++ sep :: intercalateChar sep ps

/-- Embeds convert_time (sbv_parser.py lines 120-127): replace the period
with a comma, split on colons, zero-pad a one-character hour field, join
back with colons. -/
def convert_time (cs : List Char) : List Char :=
  match splitOnChar ':' (pyReplaceDotComma cs) with
  | [] => []
  | p :: ps => intercalateChar ':' ((if p.length = 1 then '0' :: p else p) :: ps)

/-- Embeds SBVParser.sbv_to_srt_timestamp (sbv_parser.py lines 100-132):
match the two comma-separated SBV times at the start of the line (re.match
ignores trailing input), convert both and join them with the SRT arrow.
none renders the raised ValueError for a non-matching line. -/
def sbv_to_srt_timestamp (s : String) : Option String :=
  match matchTime s.toList with
  | none => none
  | some (g1, rest) =>
    match expectChar ',' rest with
    | none => none
    | some rest2 =>
      match matchTime rest2 with
      | none => none
      | some (g2, _) =>
        some (String.mk (convert_time g1 ++ " --> ".toList ++ convert_time g2))

theorem digit_ne_dot (c : Char) (h : c.isDigit = true) : ¬ c = '.' :=
  fun he => absurd h (by rw [he]; decide)

theorem digit_ne_colon (c : Char) (h : c.isDigit = true) : ¬ c = ':' :=
  fun he => absurd h (by rw [he]; decide)

theorem matchTime_sbv (h m1 m2 s1 s2 x y z : Char) (rest : List Char)
    (dh : h.isDigit = true) (dm1 : m1.isDigit = true) (dm2 : m2.isDigit = true)
    (ds1 : s1.isDigit = true) (ds2 : s2.isDigit = true) (dx : x.isDigit = true)
    (dy : y.isDigit = true) (dz : z.isDigit = true) :
    matchTime (h :: ':' :: m1 :: m2 :: ':' :: s1 :: s2 :: '.' :: x :: y :: z :: rest) =
      some ([h, ':', m1, m2, ':', s1, s2, '.', x, y, z], rest) := by
  unfold matchTime
  have htw : (h :: ':' :: m1 :: m2 :: ':' :: s1 :: s2 :: '.' :: x :: y :: z ::
      rest).takeWhile Char.isDigit = [h] := by
    rw [List.takeWhile_cons_of_pos dh, List.takeWhile_cons_of_neg (by decide)]
  have hdw : (h :: ':' :: m1 :: m2 :: ':' :: s1 :: s2 :: '.' :: x :: y :: z ::
      rest).dropWhile Char.isDigit =
      ':' :: m1 :: m2 :: ':' :: s1 :: s2 :: '.' :: x :: y :: z :: rest := by
    rw [List.dropWhile_cons_of_pos dh, List.dropWhile_cons_of_neg (by decide)]
  rw [htw, hdw]
  simp [expectChar, expectDigit, dm1, dm2, ds1, ds2, dx, dy, dz]

theorem convert_time_sbv (h m1 m2 s1 s2 x y z : Char)
    (dh : h.isDigit = true) (dm1 : m1.isDigit = true) (dm2 : m2.isDigit = true)
    (ds1 : s1.isDigit = true) (ds2 : s2.isDigit = true) (dx : x.isDigit = true)
    (dy : y.isDigit = true) (dz : z.isDigit = true) :
    convert_time [h, ':', m1, m2, ':', s1, s2, '.', x, y, z] =
      ['0', h, ':', m1, m2, ':', s1, s2, ',', x, y, z] := by
  have e1 : pyReplaceDotComma [h, ':', m1, m2, ':', s1, s2, '.', x, y, z] =
      [h, ':', m1, m2, ':', s1, s2, ',', x, y, z] := by
    simp [pyReplaceDotComma, digit_ne_dot h dh, digit_ne_dot m1 dm1, digit_ne_dot m2 dm2,
      digit_ne_dot s1 ds1, digit_ne_dot s2 ds2, digit_ne_dot x dx, digit_ne_dot y dy,
      digit_ne_dot z dz]
  have e2 : splitOnChar ':' [h, ':', m1, m2, ':', s1, s2, ',', x, y, z] =
      [[h], [m1, m2], [s1, s2, ',', x, y, z]] := by
    simp [splitOnChar, digit_ne_colon h dh, digit_ne_colon m1 dm1, digit_ne_colon m2 dm2,
      digit_ne_colon s1 ds1, digit_ne_colon s2 ds2, digit_ne_colon x dx,
      digit_ne_colon y dy, digit_ne_colon z dz]
  unfold convert_time
  rw [e1, e2]
  simp [intercalateChar]

/-- C8: on every well-formed SBV timestamp line of shape
H:MM:SS.mmm,H:MM:SS.mmm with a single-digit hour, sbv_to_srt_timestamp
returns the SRT timestamp pair obtained by replacing each millisecond
period with a comma, zero-padding each hour to two digits, and joining the
two times with the arrow. -/
theorem sbv_to_srt_timestamp_wellformed
    (h1 m1 m2 s1 s2 x1 y1 z1 h2 m3 m4 s3 s4 x2 y2 z2 : Char)
    (da1 : h1.isDigit = true) (da2 : m1.isDigit = true) (da3 : m2.isDigit = true)
    (da4 : s1.isDigit = true) (da5 : s2.isDigit = true) (da6 : x1.isDigit = true)
    (da7 : y1.isDigit = true) (da8 : z1.isDigit = true)
    (db1 : h2.isDigit = true) (db2 : m3.isDigit = true) (db3 : m4.isDigit = true)
    (db4 : s3.isDigit = true) (db5 : s4.isDigit = true) (db6 : x2.isDigit = true)
    (db7 : y2.isDigit = true) (db8 : z2.isDigit = true) :
    sbv_to_srt_timestamp (String.mk
      [h1, ':', m1, m2, ':', s1, s2, '.', x1, y1, z1, ',',
       h2, ':', m3, m4, ':', s3, s4, '.', x2, y2, z2]) =
      some (String.mk
        ['0', h1, ':', m1, m2, ':', s1, s2, ',', x1, y1, z1,
         ' ', '-', '-', '>', ' ',
         '0', h2, ':', m3, m4, ':', s3, s4, ',', x2, y2, z2]) := by
  unfold sbv_to_srt_timestamp
  rw [show (String.mk
      [h1, ':', m1, m2, ':', s1, s2, '.', x1, y1, z1, ',',
       h2, ':', m3, m4, ':', s3, s4, '.', x2, y2, z2]).toList =
      h1 :: ':' :: m1 :: m2 :: ':' :: s1 :: s2 :: '.' :: x1 :: y1 :: z1 ::
        (',' :: h2 :: ':' :: m3 :: m4 :: ':' :: s3 :: s4 :: '.' :: x2 :: y2 :: z2 :: [])
      from rfl]
  rw [matchTime_sbv h1 m1 m2 s1 s2 x1 y1 z1
    (',' :: h2 :: ':' :: m3 :: m4 :: ':' :: s3 :: s4 :: '.' :: x2 :: y2 :: z2 :: [])
    da1 da2 da3 da4 da5 da6 da7 da8]
  dsimp only
  rw [show expectChar ','
      (',' :: h2 :: ':' :: m3 :: m4 :: ':' :: s3 :: s4 :: '.' :: x2 :: y2 :: z2 :: []) =
      some (h2 :: ':' :: m3 :: m4 :: ':' :: s3 :: s4 :: '.' :: x2 :: y2 :: z2 :: [])
    from rfl]
  dsimp only
  rw [matchTime_sbv h2 m3 m4 s3 s4 x2 y2 z2 [] db1 db2 db3 db4 db5 db6 db7 db8]
  dsimp only
  rw [convert_time_sbv h1 m1 m2 s1 s2 x1 y1 z1 da1 da2 da3 da4 da5 da6 da7 da8,
    convert_time_sbv h2 m3 m4 s3 s4 x2 y2 z2 db1 db2 db3 db4 db5 db6 db7 db8]
  rfl

/-- Witness for C8 at the docstring example 0:01:30.400,0:01:34.050. -/
theorem sbv_to_srt_timestamp_wellformed_witness :
    sbv_to_srt_timestamp (String.mk
      ['0', ':', '0', '1', ':', '3', '0', '.', '4', '0', '0', ',',
       '0', ':', '0', '1', ':', '3', '4', '.', '0', '5', '0']) =
      some (String.mk
        ['0', '0', ':', '0', '1', ':', '3', '0', ',', '4', '0', '0',
         ' ', '-', '-', '>', ' ',
         '0', '0', ':', '0', '1', ':', '3', '4', ',', '0', '5', '0']) :=
  sbv_to_srt_timestamp_wellformed '0' '0' '1' '3' '0' '4' '0' '0' '0' '0' '1' '3' '4'
    '0' '5' '0' (by decide) (by decide) (by decide) (by decide) (by decide) (by decide)
    (by decide) (by decide) (by decide) (by decide) (by decide) (by decide) (by decide)
    (by decide) (by decide) (by decide)
